import Mathlib

/-!
Verification of the CCS repository's GLMT proxy specification.

The GLMT proxy core (SSE parser, delta accumulator, thinking-control
resolver, proxy state machine) is referenced by the repository's
documentation but its implementation files are not part of the source
tree, so those components are modelled from the specification text.
The quota fetcher and the startup lock are embedded from the actual
TypeScript source.
-/

namespace CCS

/-! ## SSE Parser (§4.1) -/

/-- Modelled from the spec: error raised when the SSE parser's accumulated
unterminated buffer exceeds the 1 MB limit. -/
inductive SSEError where
  | streamTooLarge
deriving DecidableEq

/-- Modelled from the spec: one decoded Server-Sent Event; its payload is
the list of data-field lines seen before the blank-line terminator. -/
structure SSEEvent where
  dataLines : List (List Char)
deriving DecidableEq

/-- Modelled from the spec: incremental parser state. `lineBuf` is the
current incomplete line buffered across chunk boundaries, `pending` holds
the data lines of the current unterminated event, `done` records that the
[DONE] sentinel was seen. -/
structure SSEState where
  lineBuf : List Char
  pending : List (List Char)
  done : Bool
deriving DecidableEq

def sseInit : SSEState := ⟨[], [], false⟩

/-- 1 MB SSE buffer limit from the documented DoS-protection table. -/
def sseBufferLimit : Nat := 1048576

/-- Total bytes of not-yet-emitted content held by the parser. -/
def unterminatedSize (s : SSEState) : Nat :=
  s.lineBuf.length + (s.pending.map List.length).sum

def dataTag : List Char := ['d', 'a', 't', 'a', ':']

def doneSentinel : List Char := ['[', 'D', 'O', 'N', 'E', ']']

/-- Strip the data field tag from a line, dropping one optional space. -/
def stripDataTag (line : List Char) : Option (List Char) :=
  if dataTag.isPrefixOf line then
    let rest := line.drop dataTag.length
    some (if rest.head? = some ' ' then rest.drop 1 else rest)
  else none

/-- Modelled from the spec: handle one completed line. A blank line with
pending data emits an event (or ends the stream on the [DONE] sentinel);
an empty keep-alive line is ignored; a data line is buffered; other lines
are ignored. -/
def processLine (s : SSEState) (line : List Char) : SSEState × List SSEEvent :=
  if line = [] then
    match s.pending with
    | [] => (s, [])
    | _ :: _ =>
      if s.pending = [doneSentinel] then (⟨s.lineBuf, [], true⟩, [])
      else (⟨s.lineBuf, [], s.done⟩, [⟨s.pending⟩])
  else
    match stripDataTag line with
    | some payload => (⟨s.lineBuf, s.pending ++ [payload], s.done⟩, [])
    | none => (s, [])

/-- Modelled from the spec: consume one byte. A newline completes the
buffered line; any other byte is buffered, failing with `streamTooLarge`
once the unterminated buffer exceeds the 1 MB limit. After the [DONE]
sentinel all input is ignored. -/
def sseStep (s : SSEState) (c : Char) : Except SSEError (SSEState × List SSEEvent) :=
  if s.done then .ok (s, [])
  else if c = '\n' then
    .ok (processLine ⟨[], s.pending, s.done⟩ s.lineBuf)
  else
    let s' : SSEState := ⟨s.lineBuf ++ [c], s.pending, s.done⟩
    if sseBufferLimit < unterminatedSize s' then .error .streamTooLarge
    else .ok (s', [])

/-- Modelled from the spec: `feed(bytes)` — consume one chunk, returning
the new state and all events completed within the chunk. -/
def feedChars (s : SSEState) : List Char → Except SSEError (SSEState × List SSEEvent)
  | [] => .ok (s, [])
  | c :: cs =>
    match sseStep s c with
    | .error e => .error e
    | .ok (s1, evs1) =>
      match feedChars s1 cs with
      | .error e => .error e
      | .ok (s2, evs2) => .ok (s2, evs1 ++ evs2)

/-- Feed a partition of the stream chunk by chunk to one parser instance. -/
def feedMany (s : SSEState) : List (List Char) → Except SSEError (SSEState × List SSEEvent)
  | [] => .ok (s, [])
  | ch :: rest =>
    match feedChars s ch with
    | .error e => .error e
    | .ok (s1, evs1) =>
      match feedMany s1 rest with
      | .error e => .error e
      | .ok (s2, evs2) => .ok (s2, evs1 ++ evs2)

/-- Events produced by a parser run, empty when the run failed. -/
def emitted (r : Except SSEError (SSEState × List SSEEvent)) : List SSEEvent :=
  match r with
  | .ok (_, evs) => evs
  | .error _ => []

theorem feedChars_append (s : SSEState) (a b : List Char) :
    feedChars s (a ++ b) =
      match feedChars s a with
      | .error e => .error e
      | .ok (s1, evs1) =>
        match feedChars s1 b with
        | .error e => .error e
        | .ok (s2, evs2) => .ok (s2, evs1 ++ evs2) := by
  induction a generalizing s with
  | nil =>
    simp only [List.nil_append, feedChars]
    cases feedChars s b with
    | error e => rfl
    | ok p =>
      cases p with
      | mk s2 evs2 => simp
  | cons c cs ih =>
    simp only [List.cons_append, feedChars]
    cases sseStep s c with
    | error e => rfl
    | ok p =>
      cases p with
      | mk s1 evs1 =>
        simp only [List.append_eq]
        rw [ih s1]
        cases feedChars s1 cs with
        | error e => rfl
        | ok q =>
          cases q with
          | mk s2 evs2 =>
            simp only []
            cases feedChars s2 b with
            | error e => rfl
            | ok r =>
              cases r with
              | mk s3 evs3 => simp

theorem feedMany_eq_join (s : SSEState) (chunks : List (List Char)) :
    feedMany s chunks = feedChars s chunks.flatten := by
  induction chunks generalizing s with
  | nil => rfl
  | cons ch rest ih =>
    simp only [feedMany, List.flatten_cons, feedChars_append]
    cases feedChars s ch with
    | error e => rfl
    | ok p =>
      cases p with
      | mk s1 evs1 => simp only [ih s1]

/-- First chunk of the three-chunk scenario: an incomplete data line. -/
def chunkA : List Char := "data: \x7b\"d".toList

/-- Second chunk: continues the JSON delta, still no line terminator. -/
def chunkB : List Char := "elta\": \"hi\"".toList

/-- Third chunk: completes the JSON delta and the blank-line terminator. -/
def chunkC : List Char := "\x7d\n\n".toList

/-- The JSON delta payload reassembled across the three chunks. -/
def deltaPayload : List Char := "\x7b\"delta\": \"hi\"\x7d".toList

/-- C1: feeding any partition of an SSE byte stream chunk by chunk to one
parser instance produces exactly the same outcome (same events, same final
state, same error behavior) as feeding the whole stream in one chunk; in
the concrete three-chunk split of one JSON delta, the parser emits zero
events after the first two chunks and exactly one complete event after the
third. -/
theorem sse_chunk_boundary_invariance :
    (∀ (s : SSEState) (chunks : List (List Char)),
        feedMany s chunks = feedChars s chunks.flatten) ∧
      emitted (feedMany sseInit [chunkA]) = [] ∧
      emitted (feedMany sseInit [chunkA, chunkB]) = [] ∧
      emitted (feedMany sseInit [chunkA, chunkB, chunkC]) = [⟨[deltaPayload]⟩] ∧
      feedMany sseInit [chunkA, chunkB, chunkC] =
        feedChars sseInit (chunkA ++ chunkB ++ chunkC) := by
  refine ⟨feedMany_eq_join, by decide, by decide, by decide, ?_⟩
  have h := feedMany_eq_join sseInit [chunkA, chunkB, chunkC]
  simpa [List.append_assoc] using h

/-! ## Delta Accumulator (§4.2) -/

/-- Content block type tags from the data model. -/
inductive BlockType where
  | text
  | toolUse
  | thinking
deriving DecidableEq

/-- Modelled from the spec: one content block tracked by the accumulator:
type tag, accumulated buffer, completion flag, size-ceiling error state,
and the thinking signature finalized at close. -/
structure Block where
  btype : BlockType
  buf : List Char
  closed : Bool
  errored : Bool
  signature : Option (List Char)
deriving DecidableEq

/-- Errors raised by the accumulator: protocol-ordering violations and the
per-block size ceiling. -/
inductive AccError where
  | protocolError
  | blockTooLarge
deriving DecidableEq

/-- Modelled from the spec: the events consumed by the accumulator —
open a block of a given type, append a delta fragment, close a block. -/
inductive AccEvent where
  | openBlock (idx : Nat) (t : BlockType)
  | appendDelta (idx : Nat) (frag : List Char)
  | closeBlock (idx : Nat)
deriving DecidableEq

/-- Accumulator state: mapping from block index to content block. -/
def AccState := List (Nat × Block)

instance : DecidableEq AccState := by
  unfold AccState
  infer_instance

/-- Fresh accumulator state for one request. -/
def accNew : AccState := []

def findBlock (n : Nat) : AccState → Option Block
  | [] => none
  | (m, b) :: t => if m = n then some b else findBlock n t

def setBlock (n : Nat) (b : Block) : AccState → AccState
  | [] => [(n, b)]
  | (m, b0) :: t => if m = n then (n, b) :: t else (m, b0) :: setBlock n b t

/-- 10 MB per-block ceiling from the documented DoS-protection table. -/
def maxBlockBytes : Nat := 10485760

/-- Modelled from the spec: the thinking signature is computed over the
concatenation of all thinking-text fragments of the block. -/
def sigOf (s : List Char) : List Char := s

/-- Modelled from the spec: `apply(event)`. Opening a known index, a delta
to a closed or never-opened index, and closing a closed or never-opened
index are protocol errors; a delta that pushes a block past the 10 MB
ceiling converts the block to an error state, and any further delta to an
errored block is rejected; closing a thinking block finalizes its
signature over the accumulated buffer. -/
def accApply (st : AccState) (e : AccEvent) : Except AccError AccState :=
  match e with
  | .openBlock n t =>
    match findBlock n st with
    | some _ => .error .protocolError
    | none => .ok (setBlock n ⟨t, [], false, false, none⟩ st)
  | .appendDelta n frag =>
    match findBlock n st with
    | none => .error .protocolError
    | some b =>
      if b.closed then .error .protocolError
      else if b.errored then .error .blockTooLarge
      else
        let buf2 := b.buf ++ frag
        .ok (setBlock n ⟨b.btype, buf2, false, decide (maxBlockBytes < buf2.length), b.signature⟩ st)
  | .closeBlock n =>
    match findBlock n st with
    | none => .error .protocolError
    | some b =>
      if b.closed then .error .protocolError
      else
        .ok (setBlock n
          ⟨b.btype, b.buf, true, b.errored,
            if b.btype = .thinking then some (sigOf b.buf) else none⟩ st)

/-- Run the accumulator over a whole event sequence. -/
def accRun (st : AccState) : List AccEvent → Except AccError AccState
  | [] => .ok st
  | e :: es =>
    match accApply st e with
    | .error err => .error err
    | .ok st2 => accRun st2 es

/-- Number of OpenBlock events for index `n` in a trace. -/
def countOpen (n : Nat) : List AccEvent → Nat
  | [] => 0
  | .openBlock m _ :: t => (if m = n then 1 else 0) + countOpen n t
  | _ :: t => countOpen n t

/-- Concatenation of all delta fragments for index `n` in a trace. -/
def fragsIn (n : Nat) : List AccEvent → List Char
  | [] => []
  | .appendDelta m f :: t => (if m = n then f else []) ++ fragsIn n t
  | _ :: t => fragsIn n t

theorem findBlock_setBlock_self (n : Nat) (b : Block) (st : AccState) :
    findBlock n (setBlock n b st) = some b := by
  induction st with
  | nil => simp [setBlock, findBlock]
  | cons p t ih =>
    cases p with
    | mk m b0 =>
      by_cases h : m = n
      · simp [setBlock, findBlock, h]
      · simp [setBlock, findBlock, h, ih]

theorem findBlock_setBlock_ne (n m : Nat) (hne : m ≠ n) (b : Block) (st : AccState) :
    findBlock n (setBlock m b st) = findBlock n st := by
  induction st with
  | nil => simp [setBlock, findBlock, hne]
  | cons p t ih =>
    cases p with
    | mk k b0 =>
      by_cases h : k = m
      · subst h
        simp [setBlock, findBlock, hne]
      · by_cases h2 : k = n
        · simp [setBlock, findBlock, h, h2, Ne.symm hne]
        · simp [setBlock, findBlock, h, h2, ih]

theorem accRun_append (st : AccState) (t1 t2 : List AccEvent) :
    accRun st (t1 ++ t2) =
      match accRun st t1 with
      | .error e => .error e
      | .ok st1 => accRun st1 t2 := by
  induction t1 generalizing st with
  | nil => rfl
  | cons e es ih =>
    simp only [List.cons_append, accRun]
    cases accApply st e with
    | error err => rfl
    | ok st2 => exact ih st2

/-- 1 when index `n` has a block in the state, 0 otherwise. -/
def presNat (n : Nat) (s : AccState) : Nat :=
  if (findBlock n s).isSome then 1 else 0

/-- Buffer of block `n`, empty when absent. -/
def bufAt (n : Nat) (s : AccState) : List Char :=
  match findBlock n s with
  | some b => b.buf
  | none => []

/-- Contribution of one event to the OpenBlock count of index `n`. -/
def openInc (n : Nat) : AccEvent → Nat
  | .openBlock m _ => if m = n then 1 else 0
  | _ => 0

/-- Contribution of one event to the delta fragments of index `n`. -/
def fragInc (n : Nat) : AccEvent → List Char
  | .appendDelta m f => if m = n then f else []
  | _ => []

theorem countOpen_cons (n : Nat) (e : AccEvent) (t : List AccEvent) :
    countOpen n (e :: t) = openInc n e + countOpen n t := by
  cases e <;> simp [countOpen, openInc]

theorem fragsIn_cons (n : Nat) (e : AccEvent) (t : List AccEvent) :
    fragsIn n (e :: t) = fragInc n e ++ fragsIn n t := by
  cases e <;> simp [fragsIn, fragInc]

theorem accApply_presNat (s0 s1 : AccState) (e : AccEvent) (n : Nat)
    (h : accApply s0 e = .ok s1) : presNat n s1 = presNat n s0 + openInc n e := by
  cases e with
  | openBlock m t =>
    simp only [accApply] at h
    cases hf : findBlock m s0 with
    | some b => rw [hf] at h; simp at h
    | none =>
      rw [hf] at h
      simp only [Except.ok.injEq] at h
      subst h
      by_cases hmn : m = n
      · subst hmn
        simp [presNat, findBlock_setBlock_self, hf, openInc]
      · simp [presNat, findBlock_setBlock_ne n m hmn, openInc, hmn]
  | appendDelta m f =>
    simp only [accApply] at h
    cases hf : findBlock m s0 with
    | none => rw [hf] at h; simp at h
    | some b =>
      rw [hf] at h
      by_cases hc : b.closed
      · simp [hc] at h
      · by_cases herr : b.errored
        · simp [hc, herr] at h
        · simp only [hc, herr, Bool.false_eq_true, if_false, Except.ok.injEq] at h
          subst h
          by_cases hmn : m = n
          · subst hmn
            simp [presNat, findBlock_setBlock_self, hf, openInc]
          · simp [presNat, findBlock_setBlock_ne n m hmn, openInc]
  | closeBlock m =>
    simp only [accApply] at h
    cases hf : findBlock m s0 with
    | none => rw [hf] at h; simp at h
    | some b =>
      rw [hf] at h
      by_cases hc : b.closed
      · simp [hc] at h
      · simp only [hc, Bool.false_eq_true, if_false, Except.ok.injEq] at h
        subst h
        by_cases hmn : m = n
        · subst hmn
          simp [presNat, findBlock_setBlock_self, hf, openInc]
        · simp [presNat, findBlock_setBlock_ne n m hmn, openInc]

theorem accApply_bufAt (s0 s1 : AccState) (e : AccEvent) (n : Nat)
    (h : accApply s0 e = .ok s1) : bufAt n s1 = bufAt n s0 ++ fragInc n e := by
  cases e with
  | openBlock m t =>
    simp only [accApply] at h
    cases hf : findBlock m s0 with
    | some b => rw [hf] at h; simp at h
    | none =>
      rw [hf] at h
      simp only [Except.ok.injEq] at h
      subst h
      by_cases hmn : m = n
      · subst hmn
        simp [bufAt, findBlock_setBlock_self, hf, fragInc]
      · simp [bufAt, findBlock_setBlock_ne n m hmn, fragInc]
  | appendDelta m f =>
    simp only [accApply] at h
    cases hf : findBlock m s0 with
    | none => rw [hf] at h; simp at h
    | some b =>
      rw [hf] at h
      by_cases hc : b.closed
      · simp [hc] at h
      · by_cases herr : b.errored
        · simp [hc, herr] at h
        · simp only [hc, herr, Bool.false_eq_true, if_false, Except.ok.injEq] at h
          subst h
          by_cases hmn : m = n
          · subst hmn
            simp [bufAt, findBlock_setBlock_self, hf, fragInc]
          · simp [bufAt, findBlock_setBlock_ne n m hmn, fragInc, hmn]
  | closeBlock m =>
    simp only [accApply] at h
    cases hf : findBlock m s0 with
    | none => rw [hf] at h; simp at h
    | some b =>
      rw [hf] at h
      by_cases hc : b.closed
      · simp [hc] at h
      · simp only [hc, Bool.false_eq_true, if_false, Except.ok.injEq] at h
        subst h
        by_cases hmn : m = n
        · subst hmn
          simp [bufAt, findBlock_setBlock_self, hf, fragInc]
        · simp [bufAt, findBlock_setBlock_ne n m hmn, fragInc]

theorem accRun_presNat (tr : List AccEvent) (s0 s : AccState) (n : Nat)
    (h : accRun s0 tr = .ok s) : presNat n s0 + countOpen n tr = presNat n s := by
  induction tr generalizing s0 with
  | nil =>
    simp only [accRun, Except.ok.injEq] at h
    subst h
    simp [countOpen]
  | cons e es ih =>
    simp only [accRun] at h
    cases he : accApply s0 e with
    | error err => rw [he] at h; simp at h
    | ok s2 =>
      rw [he] at h
      have h1 := accApply_presNat s0 s2 e n he
      have h2 := ih s2 h
      rw [countOpen_cons]
      omega

theorem accRun_bufAt (tr : List AccEvent) (s0 s : AccState) (n : Nat)
    (h : accRun s0 tr = .ok s) : bufAt n s = bufAt n s0 ++ fragsIn n tr := by
  induction tr generalizing s0 with
  | nil =>
    simp only [accRun, Except.ok.injEq] at h
    subst h
    simp [fragsIn]
  | cons e es ih =>
    simp only [accRun] at h
    cases he : accApply s0 e with
    | error err => rw [he] at h; simp at h
    | ok s2 =>
      rw [he] at h
      rw [fragsIn_cons, ih s2 h, accApply_bufAt s0 s2 e n he, List.append_assoc]

instance instDecEqExcept {ε α : Type} [DecidableEq ε] [DecidableEq α] :
    DecidableEq (Except ε α) := fun a b =>
  match a, b with
  | .error e1, .error e2 =>
    match decEq e1 e2 with
    | isTrue h => isTrue (by rw [h])
    | isFalse h => isFalse (fun hh => h (Except.error.inj hh))
  | .ok v1, .ok v2 =>
    match decEq v1 v2 with
    | isTrue h => isTrue (by rw [h])
    | isFalse h => isFalse (fun hh => h (Except.ok.inj hh))
  | .error _, .ok _ => isFalse (fun hh => Except.noConfusion hh)
  | .ok _, .error _ => isFalse (fun hh => Except.noConfusion hh)

theorem accApply_closed_step (s0 s1 : AccState) (e : AccEvent) (n : Nat) (b : Block)
    (hb : findBlock n s0 = some b) (hc : b.closed = true)
    (h : accApply s0 e = .ok s1) :
    findBlock n s1 = some b ∧ ∀ f, e ≠ .appendDelta n f := by
  cases e with
  | openBlock m t =>
    simp only [accApply] at h
    cases hf : findBlock m s0 with
    | some b0 => rw [hf] at h; simp at h
    | none =>
      rw [hf] at h
      simp only [Except.ok.injEq] at h
      subst h
      have hmn : m ≠ n := by
        intro hEq
        rw [hEq, hb] at hf
        exact Option.noConfusion hf
      refine ⟨?_, fun f hne => AccEvent.noConfusion hne⟩
      rw [findBlock_setBlock_ne n m hmn, hb]
  | appendDelta m f0 =>
    simp only [accApply] at h
    cases hf : findBlock m s0 with
    | none => rw [hf] at h; simp at h
    | some b0 =>
      rw [hf] at h
      by_cases hc0 : b0.closed
      · simp [hc0] at h
      · have hmn : m ≠ n := by
          intro hEq
          rw [hEq, hb] at hf
          have hbv : b = b0 := Option.some.inj hf
          rw [← hbv, hc] at hc0
          exact hc0 rfl
        by_cases herr : b0.errored
        · simp [hc0, herr] at h
        · simp only [hc0, herr, Bool.false_eq_true, if_false, Except.ok.injEq] at h
          subst h
          refine ⟨?_, fun f hne => ?_⟩
          · rw [findBlock_setBlock_ne n m hmn, hb]
          · have := (AccEvent.appendDelta.injEq m f0 n f).mp hne
            exact hmn this.1
  | closeBlock m =>
    simp only [accApply] at h
    cases hf : findBlock m s0 with
    | none => rw [hf] at h; simp at h
    | some b0 =>
      rw [hf] at h
      by_cases hc0 : b0.closed
      · simp [hc0] at h
      · have hmn : m ≠ n := by
          intro hEq
          rw [hEq, hb] at hf
          have hbv : b = b0 := Option.some.inj hf
          rw [← hbv, hc] at hc0
          exact hc0 rfl
        simp only [hc0, Bool.false_eq_true, if_false, Except.ok.injEq] at h
        subst h
        refine ⟨?_, fun f hne => AccEvent.noConfusion hne⟩
        rw [findBlock_setBlock_ne n m hmn, hb]

theorem accRun_closedPersist (tr : List AccEvent) (s0 s : AccState) (n : Nat) (b : Block)
    (hb : findBlock n s0 = some b) (hc : b.closed = true)
    (h : accRun s0 tr = .ok s) :
    findBlock n s = some b ∧ ∀ f, AccEvent.appendDelta n f ∉ tr := by
  induction tr generalizing s0 with
  | nil =>
    simp only [accRun, Except.ok.injEq] at h
    subst h
    exact ⟨hb, fun f hmem => (List.not_mem_nil _ hmem)⟩
  | cons e es ih =>
    simp only [accRun] at h
    cases he : accApply s0 e with
    | error err => rw [he] at h; simp at h
    | ok s2 =>
      rw [he] at h
      have step := accApply_closed_step s0 s2 e n b hb hc he
      have rest := ih s2 step.1 h
      refine ⟨rest.1, fun f hmem => ?_⟩
      rcases List.mem_cons.mp hmem with hhd | htl
      · exact step.2 f hhd.symm
      · exact rest.2 f htl

/-- Per-block well-formedness: the signature is absent while the block is
open, matches the finalized value once closed, and the error flag tracks
the 10 MB ceiling. -/
def BlockWF (b : Block) : Prop :=
  (b.closed = false → b.signature = none) ∧
  (b.closed = true →
    b.signature = (if b.btype = .thinking then some (sigOf b.buf) else none)) ∧
  b.errored = decide (maxBlockBytes < b.buf.length)

/-- State-level well-formedness: every tracked block is well-formed. -/
def StateWF (s : AccState) : Prop := ∀ n b, findBlock n s = some b → BlockWF b

theorem stateWF_accNew : StateWF accNew := by
  intro n b hb
  simp [findBlock, accNew] at hb

theorem accApply_WF (s0 s1 : AccState) (e : AccEvent)
    (hwf : StateWF s0) (h : accApply s0 e = .ok s1) : StateWF s1 := by
  cases e with
  | openBlock m t =>
    simp only [accApply] at h
    cases hf : findBlock m s0 with
    | some b0 => rw [hf] at h; simp at h
    | none =>
      rw [hf] at h
      simp only [Except.ok.injEq] at h
      subst h
      intro n b hb
      by_cases hmn : m = n
      · subst hmn
        rw [findBlock_setBlock_self] at hb
        have hbv := Option.some.inj hb
        subst hbv
        exact ⟨fun _ => rfl, fun hcl => Bool.noConfusion hcl, rfl⟩
      · rw [findBlock_setBlock_ne n m hmn] at hb
        exact hwf n b hb
  | appendDelta m f =>
    simp only [accApply] at h
    cases hf : findBlock m s0 with
    | none => rw [hf] at h; simp at h
    | some b0 =>
      rw [hf] at h
      by_cases hc0 : b0.closed
      · simp [hc0] at h
      · by_cases herr : b0.errored
        · simp [hc0, herr] at h
        · simp only [hc0, herr, Bool.false_eq_true, if_false, Except.ok.injEq] at h
          subst h
          intro n b hb
          by_cases hmn : m = n
          · subst hmn
            rw [findBlock_setBlock_self] at hb
            have hbv := Option.some.inj hb
            subst hbv
            have hsig := (hwf m b0 hf).1 (Bool.eq_false_iff.mpr hc0)
            exact ⟨fun _ => hsig, fun hcl => Bool.noConfusion hcl, rfl⟩
          · rw [findBlock_setBlock_ne n m hmn] at hb
            exact hwf n b hb
  | closeBlock m =>
    simp only [accApply] at h
    cases hf : findBlock m s0 with
    | none => rw [hf] at h; simp at h
    | some b0 =>
      rw [hf] at h
      by_cases hc0 : b0.closed
      · simp [hc0] at h
      · simp only [hc0, Bool.false_eq_true, if_false, Except.ok.injEq] at h
        subst h
        intro n b hb
        by_cases hmn : m = n
        · subst hmn
          rw [findBlock_setBlock_self] at hb
          have hbv := Option.some.inj hb
          subst hbv
          exact ⟨fun hcl => Bool.noConfusion hcl, fun _ => rfl,
            (hwf m b0 hf).2.2⟩
        · rw [findBlock_setBlock_ne n m hmn] at hb
          exact hwf n b hb

theorem accRun_WF (tr : List AccEvent) (s0 s : AccState)
    (hwf : StateWF s0) (h : accRun s0 tr = .ok s) : StateWF s := by
  induction tr generalizing s0 with
  | nil =>
    simp only [accRun, Except.ok.injEq] at h
    subst h
    exact hwf
  | cons e es ih =>
    simp only [accRun] at h
    cases he : accApply s0 e with
    | error err => rw [he] at h; simp at h
    | ok s2 =>
      rw [he] at h
      exact ih s2 (accApply_WF s0 s2 e hwf he) h

/-- C2: a CloseBlock for index N is accepted only when N is open and not
yet closed; an AppendDelta to a closed or never-opened index is a
ProtocolError propagated to the caller; and in every accepted event
sequence each CloseBlock is preceded by exactly one OpenBlock for the same
index with no AppendDelta for that index after its CloseBlock. -/
theorem accumulator_ordering_invariant :
    (∀ (st : AccState) (n : Nat) (f : List Char), findBlock n st = none →
        accApply st (.appendDelta n f) = .error .protocolError) ∧
    (∀ (st : AccState) (n : Nat) (f : List Char) (b : Block), findBlock n st = some b →
        b.closed = true → accApply st (.appendDelta n f) = .error .protocolError) ∧
    (∀ (st : AccState) (n : Nat), findBlock n st = none →
        accApply st (.closeBlock n) = .error .protocolError) ∧
    (∀ (st : AccState) (n : Nat) (b : Block), findBlock n st = some b →
        b.closed = true → accApply st (.closeBlock n) = .error .protocolError) ∧
    (∀ (tr1 : List AccEvent) (n : Nat) (tr2 : List AccEvent) (s : AccState),
        accRun accNew (tr1 ++ AccEvent.closeBlock n :: tr2) = .ok s →
        countOpen n tr1 = 1 ∧ ∀ f, AccEvent.appendDelta n f ∉ tr2) := by
  refine ⟨?_, ?_, ?_, ?_, ?_⟩
  · intro st n f hb
    simp [accApply, hb]
  · intro st n f b hb hc
    simp [accApply, hb, hc]
  · intro st n hb
    simp [accApply, hb]
  · intro st n b hb hc
    simp [accApply, hb, hc]
  · intro tr1 n tr2 s h
    rw [accRun_append] at h
    cases h1 : accRun accNew tr1 with
    | error err => rw [h1] at h; simp at h
    | ok s1 =>
      rw [h1] at h
      simp only [accRun] at h
      cases he : accApply s1 (AccEvent.closeBlock n) with
      | error err => rw [he] at h; simp at h
      | ok s2 =>
        rw [he] at h
        constructor
        · have hpres := accRun_presNat tr1 accNew s1 n h1
          have hnew : presNat n accNew = 0 := by
            simp [presNat, accNew, findBlock]
          have hone : presNat n s1 = 1 := by
            simp only [accApply] at he
            cases hf : findBlock n s1 with
            | none => rw [hf] at he; simp at he
            | some b =>
              simp [presNat, hf]
          omega
        · simp only [accApply] at he
          cases hf : findBlock n s1 with
          | none => rw [hf] at he; simp at he
          | some b =>
            rw [hf] at he
            by_cases hc0 : b.closed
            · simp [hc0] at he
            · simp only [hc0, Bool.false_eq_true, if_false, Except.ok.injEq] at he
              subst he
              exact (accRun_closedPersist tr2 _ s n _
                (findBlock_setBlock_self n _ s1) rfl h).2

theorem accumulator_ordering_invariant_witness :
    accRun accNew
        ([AccEvent.openBlock 0 BlockType.text, AccEvent.appendDelta 0 ['a']] ++
          AccEvent.closeBlock 0 :: []) =
      .ok [(0, ⟨BlockType.text, ['a'], true, false, none⟩)] ∧
    countOpen 0 [AccEvent.openBlock 0 BlockType.text, AccEvent.appendDelta 0 ['a']] = 1 ∧
    AccEvent.appendDelta 0 ['b'] ∉ ([] : List AccEvent) := by
  have h : accRun accNew
      ([AccEvent.openBlock 0 BlockType.text, AccEvent.appendDelta 0 ['a']] ++
        AccEvent.closeBlock 0 :: []) =
      .ok [(0, ⟨BlockType.text, ['a'], true, false, none⟩)] := by decide
  have h2 := accumulator_ordering_invariant.2.2.2.2
    [AccEvent.openBlock 0 BlockType.text, AccEvent.appendDelta 0 ['a']] 0 []
    [(0, ⟨BlockType.text, ['a'], true, false, none⟩)] h
  exact ⟨h, h2.1, h2.2 ['b']⟩

/-- C3: a thinking block's signature is absent while the block is open, is
finalized exactly once at CloseBlock over the concatenation of all
thinking-text fragments appended to the block, stays unchanged under all
further accepted events, and replaying the same event sequence yields the
same output. -/
theorem thinking_signature_finalized_once :
    (∀ (tr : List AccEvent) (s : AccState) (n : Nat) (b : Block),
        accRun accNew tr = .ok s → findBlock n s = some b → b.btype = .thinking →
        (b.closed = true → b.signature = some (sigOf (fragsIn n tr))) ∧
        (b.closed = false → b.signature = none)) ∧
    (∀ (s0 : AccState) (tr : List AccEvent) (s : AccState) (n : Nat) (b : Block),
        findBlock n s0 = some b → b.closed = true → accRun s0 tr = .ok s →
        findBlock n s = some b) ∧
    (∀ (tr : List AccEvent) (s1 s2 : AccState),
        accRun accNew tr = .ok s1 → accRun accNew tr = .ok s2 → s1 = s2) := by
  refine ⟨?_, ?_, ?_⟩
  · intro tr s n b hrun hb hth
    have hbwf := accRun_WF tr accNew s stateWF_accNew hrun n b hb
    constructor
    · intro hcl
      have hsig := hbwf.2.1 hcl
      have hbuf : b.buf = fragsIn n tr := by
        have h1 := accRun_bufAt tr accNew s n hrun
        have h2 : bufAt n accNew = [] := by simp [bufAt, accNew, findBlock]
        have h3 : bufAt n s = b.buf := by simp [bufAt, hb]
        rw [h3, h2] at h1
        simpa using h1
      rw [hsig, hth, hbuf]
      simp
    · exact hbwf.1
  · intro s0 tr s n b hb hc hrun
    exact (accRun_closedPersist tr s0 s n b hb hc hrun).1
  · intro tr s1 s2 h1 h2
    rw [h1] at h2
    exact Except.ok.inj h2

def c3tr : List AccEvent :=
  [AccEvent.openBlock 0 BlockType.thinking, AccEvent.appendDelta 0 ['a', 'b'],
    AccEvent.appendDelta 0 ['c'], AccEvent.closeBlock 0]

def c3block : Block := ⟨BlockType.thinking, ['a', 'b', 'c'], true, false, some ['a', 'b', 'c']⟩

def c3state : AccState := [(0, c3block)]

theorem thinking_signature_finalized_once_witness :
    accRun accNew c3tr = .ok c3state ∧
    findBlock 0 c3state = some c3block ∧
    c3block.signature = some (sigOf (fragsIn 0 c3tr)) := by
  have hrun : accRun accNew c3tr = .ok c3state := by decide
  have hb : findBlock 0 c3state = some c3block := by decide
  exact ⟨hrun, hb,
    (thinking_signature_finalized_once.1 c3tr c3state 0 c3block hrun hb rfl).1 rfl⟩

/-- C4: a delta that pushes an open block past the 10 MB ceiling is
applied and converts the block to an error state; every further
AppendDelta to an errored block is rejected with a blockTooLarge error;
and in every accepted run each block's buffer is exactly the
concatenation of its accepted fragments (never silently truncated), with
the error flag set exactly when the buffer exceeds the ceiling. -/
theorem block_size_ceiling :
    (∀ (st : AccState) (n : Nat) (f : List Char) (b : Block),
        findBlock n st = some b → b.closed = false → b.errored = false →
        maxBlockBytes < b.buf.length + f.length →
        accApply st (.appendDelta n f) =
          .ok (setBlock n ⟨b.btype, b.buf ++ f, false, true, b.signature⟩ st)) ∧
    (∀ (st : AccState) (n : Nat) (f : List Char) (b : Block),
        findBlock n st = some b → b.closed = false → b.errored = true →
        accApply st (.appendDelta n f) = .error .blockTooLarge) ∧
    (∀ (tr : List AccEvent) (s : AccState) (n : Nat) (b : Block),
        accRun accNew tr = .ok s → findBlock n s = some b →
        b.buf = fragsIn n tr ∧ (b.errored = true ↔ maxBlockBytes < b.buf.length)) := by
  refine ⟨?_, ?_, ?_⟩
  · intro st n f b hb hc herr hlt
    have hd : decide (maxBlockBytes < b.buf.length + f.length) = true :=
      decide_eq_true hlt
    simp [accApply, hb, hc, herr, List.length_append, hd]
  · intro st n f b hb hc herr
    simp [accApply, hb, hc, herr]
  · intro tr s n b hrun hb
    constructor
    · have h1 := accRun_bufAt tr accNew s n hrun
      have h2 : bufAt n accNew = [] := by simp [bufAt, accNew, findBlock]
      have h3 : bufAt n s = b.buf := by simp [bufAt, hb]
      rw [h3, h2] at h1
      simpa using h1
    · have he := (accRun_WF tr accNew s stateWF_accNew hrun n b hb).2.2
      constructor
      · intro ht
        rw [ht] at he
        exact of_decide_eq_true he.symm
      · intro hlt
        rw [he]
        exact decide_eq_true hlt

def c4big : Block := ⟨BlockType.text, List.replicate maxBlockBytes 'a', false, false, none⟩

def c4st : AccState := [(0, c4big)]

theorem block_size_ceiling_witness :
    findBlock 0 c4st = some c4big ∧
    c4big.closed = false ∧ c4big.errored = false ∧
    maxBlockBytes < c4big.buf.length + (['b', 'c'] : List Char).length ∧
    accApply c4st (.appendDelta 0 ['b', 'c']) =
      .ok (setBlock 0 ⟨c4big.btype, c4big.buf ++ ['b', 'c'], false, true,
        c4big.signature⟩ c4st) := by
  have h1 : c4big.buf.length = maxBlockBytes := by
    show (List.replicate maxBlockBytes 'a').length = maxBlockBytes
    exact List.length_replicate maxBlockBytes 'a'
  have hlt : maxBlockBytes < c4big.buf.length + (['b', 'c'] : List Char).length := by
    rw [List.length_cons, List.length_cons, List.length_nil, h1]
    omega
  exact ⟨rfl, rfl, rfl, hlt,
    block_size_ceiling.1 c4st 0 ['b', 'c'] c4big rfl rfl rfl hlt⟩


/-! ## Proxy server fallback and SSE size limit (§4.6, §7) -/

/-- Modelled from the spec: mid-stream failures that trigger the automatic
fallback from Streaming to Buffering. -/
inductive StreamFailure where
  | streamTooLarge
  | protocolError
  | upstreamConnectionError
deriving DecidableEq

/-- Modelled from the spec: the per-request proxy state machine phases. -/
inductive ProxyPhase where
  | receiving
  | transforming
  | streaming
  | buffering
  | closing
deriving DecidableEq

/-- What one streaming step can observe. -/
inductive StreamSignal where
  | chunkOk
  | streamEnd
  | fail (f : StreamFailure)
deriving DecidableEq

/-- Modelled from the spec: the Streaming-phase transition — any
StreamTooLarge, ProtocolError, or upstream connection failure enters
Buffering automatically; a normal chunk stays in Streaming; stream end
advances to Closing. -/
def proxyStepStreaming : StreamSignal → ProxyPhase
  | .chunkOk => .streaming
  | .streamEnd => .closing
  | .fail _ => .buffering

/-- Events the client receives from incremental chunk-by-chunk streaming. -/
def streamedEvents (chunks : List (List Char)) :
    Except SSEError (SSEState × List SSEEvent) :=
  feedMany sseInit chunks

/-- Modelled from the spec: the Buffering path collects the upstream
response fully and performs one one-shot transformation over it. -/
def bufferedEvents (chunks : List (List Char)) :
    Except SSEError (SSEState × List SSEEvent) :=
  feedChars sseInit chunks.flatten

theorem stripDataTag_length (line payload : List Char)
    (h : stripDataTag line = some payload) : payload.length ≤ line.length := by
  unfold stripDataTag at h
  by_cases hp : dataTag.isPrefixOf line
  · rw [if_pos hp] at h
    have hpay := Option.some.inj h
    by_cases hsp : (line.drop dataTag.length).head? = some ' '
    · rw [if_pos hsp] at hpay
      rw [← hpay]
      simp [List.length_drop]
    · rw [if_neg hsp] at hpay
      rw [← hpay]
      simp [List.length_drop]
  · rw [if_neg hp] at h
    exact Option.noConfusion h

theorem processLine_size (st : SSEState) (line : List Char) :
    unterminatedSize (processLine st line).1 ≤ unterminatedSize st + line.length := by
  obtain ⟨lb, pend, dn⟩ := st
  by_cases hl : line = []
  · subst hl
    cases pend with
    | nil => simp [processLine, unterminatedSize]
    | cons p ps =>
      by_cases hd : p :: ps = [doneSentinel]
      · simp [processLine, hd, unterminatedSize]
      · simp [processLine, hd, unterminatedSize]
  · cases hs : stripDataTag line with
    | none => simp [processLine, hl, hs, unterminatedSize]
    | some payload =>
      have hlen := stripDataTag_length line payload hs
      simp [processLine, hl, hs, unterminatedSize]
      omega

/-- C5: once the parser's accumulated unterminated buffer is at the 1 MB
ceiling, the next buffered byte fails with StreamTooLarge (and an accepted
step never leaves the buffer above the ceiling); every mid-stream
StreamTooLarge, ProtocolError, or upstream connection failure moves the
Streaming phase to Buffering; and the one-shot buffered transformation of
the fully collected stream equals what incremental streaming of the same
chunks would have produced, so the fallback response carries the same
content as the streamed one. -/
theorem stream_too_large_fallback :
    (∀ (s : SSEState) (c : Char), s.done = false → c ≠ '\n' →
        sseBufferLimit ≤ unterminatedSize s →
        sseStep s c = .error .streamTooLarge) ∧
    (∀ (s : SSEState) (c : Char) (s1 : SSEState) (evs : List SSEEvent),
        sseStep s c = .ok (s1, evs) → unterminatedSize s ≤ sseBufferLimit →
        unterminatedSize s1 ≤ sseBufferLimit) ∧
    (∀ f : StreamFailure, proxyStepStreaming (.fail f) = .buffering) ∧
    proxyStepStreaming .chunkOk = .streaming ∧
    proxyStepStreaming .streamEnd = .closing ∧
    (∀ chunks : List (List Char), streamedEvents chunks = bufferedEvents chunks) := by
  refine ⟨?_, ?_, fun f => rfl, rfl, rfl, fun chunks => feedMany_eq_join sseInit chunks⟩
  · intro s c hdone hc hle
    unfold sseStep
    rw [hdone]
    simp only [Bool.false_eq_true, if_false]
    rw [if_neg hc]
    have hsz : sseBufferLimit < unterminatedSize ⟨s.lineBuf ++ [c], s.pending, false⟩ := by
      simp only [unterminatedSize, List.length_append, List.length_cons, List.length_nil]
      simp only [unterminatedSize] at hle
      omega
    rw [if_pos hsz]
  · intro s c s1 evs h hle
    cases hd : s.done with
    | true =>
      unfold sseStep at h
      rw [hd] at h
      simp only [if_true] at h
      have hinj := (Prod.mk.injEq _ _ _ _).mp (Except.ok.inj h)
      rw [← hinj.1]
      exact hle
    | false =>
      unfold sseStep at h
      rw [hd] at h
      simp only [Bool.false_eq_true, if_false] at h
      by_cases hc : c = '\n'
      · rw [if_pos hc] at h
        have hinj := Except.ok.inj h
        have hstate : (processLine ⟨[], s.pending, false⟩ s.lineBuf).1 = s1 := by
          rw [hinj]
        have hbound := processLine_size ⟨[], s.pending, false⟩ s.lineBuf
        rw [hstate] at hbound
        have heq : unterminatedSize ⟨[], s.pending, false⟩ + s.lineBuf.length =
            unterminatedSize s := by
          simp only [unterminatedSize, List.length_nil]
          omega
        rw [heq] at hbound
        omega
      · rw [if_neg hc] at h
        by_cases hbig : sseBufferLimit <
            unterminatedSize ⟨s.lineBuf ++ [c], s.pending, false⟩
        · rw [if_pos hbig] at h
          exact Except.noConfusion h
        · rw [if_neg hbig] at h
          have hinj := (Prod.mk.injEq _ _ _ _).mp (Except.ok.inj h)
          rw [← hinj.1]
          omega

theorem size_state_replicate (n : Nat) :
    unterminatedSize ⟨List.replicate n 'a', [], false⟩ = n := by
  simp [unterminatedSize]

def c5s : SSEState := ⟨List.replicate sseBufferLimit 'a', [], false⟩

theorem stream_too_large_fallback_witness :
    c5s.done = false ∧ ('x' : Char) ≠ '\n' ∧
    sseBufferLimit ≤ unterminatedSize c5s ∧
    sseStep c5s 'x' = .error .streamTooLarge := by
  have hc : c5s = ⟨List.replicate sseBufferLimit 'a', [], false⟩ := rfl
  have hle : sseBufferLimit ≤ unterminatedSize c5s := by
    rw [hc, size_state_replicate]
  exact ⟨rfl, by decide, hle,
    stream_too_large_fallback.1 c5s 'x' rfl (by decide) hle⟩

/-! ## Thinking-Control Resolver (§4.5) -/

/-- Substring test: does `needle` occur contiguously inside `hay`? -/
def hasSub (needle : List Char) : List Char → Bool
  | [] => needle.isEmpty
  | c :: t => needle.isPrefixOf (c :: t) || hasSub needle t

/-- Effort levels for thinking mode. -/
inductive Effort where
  | low
  | medium
  | high
deriving DecidableEq

/-- Numeric rank of an effort level, used to compare tiers. -/
def effortRank : Effort → Nat
  | .low => 0
  | .medium => 1
  | .high => 2

/-- Resolved thinking mode for a request. -/
structure ThinkingResolved where
  enabled : Bool
  effort : Effort
deriving DecidableEq

def defaultEffort : Effort := .medium

def kwThink : List Char := "think".toList

def kwThinkHard : List Char := "think hard".toList

def kwThinkHarder : List Char := "think harder".toList

def kwUltrathink : List Char := "ultrathink".toList

def tagThinkingOn : List Char := "<Thinking:On>".toList

def tagThinkingOff : List Char := "<Thinking:Off>".toList

def tagEffortLow : List Char := "<Effort:Low>".toList

def tagEffortMedium : List Char := "<Effort:Medium>".toList

def tagEffortHigh : List Char := "<Effort:High>".toList

/-- Modelled from the spec: keyword detection in the final user message —
think, think hard, think harder, ultrathink, mapped to increasing effort,
strongest match first. -/
def keywordEffort (msg : List Char) : Option Effort :=
  if hasSub kwUltrathink msg then some .high
  else if hasSub kwThinkHarder msg then some .high
  else if hasSub kwThinkHard msg then some .medium
  else if hasSub kwThink msg then some .low
  else none

/-- Modelled from the spec: the inline Thinking on/off message tag. -/
def tagEnabled (msg : List Char) : Option Bool :=
  if hasSub tagThinkingOn msg then some true
  else if hasSub tagThinkingOff msg then some false
  else none

/-- Modelled from the spec: the inline Effort message tag. -/
def tagEffort (msg : List Char) : Option Effort :=
  if hasSub tagEffortLow msg then some .low
  else if hasSub tagEffortMedium msg then some .medium
  else if hasSub tagEffortHigh msg then some .high
  else none

/-- Modelled from the spec: resolve the thinking mode with the fixed
precedence CLI parameter > inline message tags > keyword detection; the
first matching source wins and lower-precedence signals are ignored;
default when no signal is present: disabled. -/
def resolveThinking (cliParam : Option Bool) (finalMsg : List Char) : ThinkingResolved :=
  match cliParam with
  | some b => ⟨b, defaultEffort⟩
  | none =>
    match tagEnabled finalMsg with
    | some b => ⟨b, (tagEffort finalMsg).getD defaultEffort⟩
    | none =>
      match tagEffort finalMsg with
      | some e => ⟨true, e⟩
      | none =>
        match keywordEffort finalMsg with
        | some e => ⟨true, e⟩
        | none => ⟨false, defaultEffort⟩

/-- Scenario message: inline Thinking:On tag plus the ultrathink keyword. -/
def c6msg : List Char := "<Thinking:On> please ultrathink".toList

/-- C6: the resolver obeys the precedence CLI parameter > inline tag >
keyword: with a CLI parameter present the message content is ignored
entirely; with CLI-param=disabled, a Thinking:On tag, and the ultrathink
keyword all present the result is disabled; with a tag present keywords
are ignored; and with no signal at all the default is disabled. -/
theorem thinking_precedence_resolution :
    (∀ (b : Bool) (m1 m2 : List Char),
        resolveThinking (some b) m1 = resolveThinking (some b) m2) ∧
    (∀ m : List Char, (resolveThinking (some false) m).enabled = false) ∧
    (hasSub tagThinkingOn c6msg = true ∧ hasSub kwUltrathink c6msg = true ∧
      resolveThinking (some false) c6msg = ⟨false, defaultEffort⟩) ∧
    (∀ m : List Char, tagEnabled m = none → tagEffort m = none →
        keywordEffort m = none → resolveThinking none m = ⟨false, defaultEffort⟩) ∧
    (∀ (m : List Char) (b : Bool), tagEnabled m = some b →
        (resolveThinking none m).enabled = b) := by
  refine ⟨fun b m1 m2 => rfl, fun m => rfl, ⟨by decide, by decide, rfl⟩, ?_, ?_⟩
  · intro m h1 h2 h3
    simp [resolveThinking, h1, h2, h3]
  · intro m b h
    simp [resolveThinking, h]

theorem thinking_precedence_resolution_witness :
    tagEnabled ("hello".toList) = none ∧ tagEffort ("hello".toList) = none ∧
    keywordEffort ("hello".toList) = none ∧
    resolveThinking none ("hello".toList) = ⟨false, defaultEffort⟩ :=
  ⟨by decide, by decide, by decide,
    thinking_precedence_resolution.2.2.2.1 ("hello".toList)
      (by decide) (by decide) (by decide)⟩

/-- C7: with a keyword as the only signal, effort is strictly increasing
across the keyword tiers: think alone resolves to low, think hard alone to
medium, ultrathink alone to high. -/
theorem keyword_effort_tiers :
    resolveThinking none ("please think".toList) = ⟨true, .low⟩ ∧
    resolveThinking none ("please think hard".toList) = ⟨true, .medium⟩ ∧
    resolveThinking none ("please ultrathink".toList) = ⟨true, .high⟩ ∧
    effortRank .low < effortRank .medium ∧
    effortRank .medium < effortRank .high := by
  refine ⟨by decide, by decide, by decide, by decide, by decide⟩

/-! ## Upstream retry policy (§7) -/

/-- Modelled from the spec: the proxy error taxonomy. -/
inductive UpstreamError where
  | malformedRequest
  | transformError
  | upstreamConnectionError
  | timeout
deriving DecidableEq

/-- What the client sees for a surfaced error. -/
inductive ClientOutcome where
  | status (code : Nat)
  | terminalErrorEvent
deriving DecidableEq

/-- Modelled from the spec §7: client-visible surfacing — MalformedRequest
is a 400, TransformError a 502, UpstreamConnectionError a 502 after the
retry, Timeout terminates the stream with a terminal error event. -/
def surfaceError : UpstreamError → ClientOutcome
  | .malformedRequest => .status 400
  | .transformError => .status 502
  | .upstreamConnectionError => .status 502
  | .timeout => .terminalErrorEvent

/-- Result of the upstream call including attempt count and backoff waits. -/
structure CallOutcome where
  result : Except UpstreamError Nat
  attempts : Nat
  waits : List Nat
deriving DecidableEq

/-- Modelled from the spec: issue the upstream call; on an
UpstreamConnectionError retry exactly once after a backoff delay; surface
every other error without retrying. -/
def callUpstream (oracle : Nat → Except UpstreamError Nat) (backoff : Nat) : CallOutcome :=
  match oracle 0 with
  | .ok r => ⟨.ok r, 1, []⟩
  | .error e =>
    if e = .upstreamConnectionError then
      match oracle 1 with
      | .ok r => ⟨.ok r, 2, [backoff]⟩
      | .error e2 => ⟨.error e2, 2, [backoff]⟩
    else ⟨.error e, 1, []⟩

/-- C8: a request failing with UpstreamConnectionError is retried exactly
once, with a backoff wait, before the failure is surfaced as a 502;
MalformedRequest (400), TransformError (502), and Timeout are never
retried. -/
theorem upstream_retry_policy :
    (∀ (oracle : Nat → Except UpstreamError Nat) (backoff : Nat),
        oracle 0 = .error .upstreamConnectionError →
        (callUpstream oracle backoff).attempts = 2 ∧
        (callUpstream oracle backoff).waits = [backoff] ∧
        ∀ e2, oracle 1 = .error e2 →
          (callUpstream oracle backoff).result = .error e2) ∧
    (∀ (oracle : Nat → Except UpstreamError Nat) (backoff : Nat) (e : UpstreamError),
        oracle 0 = .error e → e ≠ .upstreamConnectionError →
        callUpstream oracle backoff = ⟨.error e, 1, []⟩) ∧
    surfaceError .upstreamConnectionError = .status 502 ∧
    surfaceError .malformedRequest = .status 400 ∧
    surfaceError .transformError = .status 502 ∧
    surfaceError .timeout = .terminalErrorEvent := by
  refine ⟨?_, ?_, rfl, rfl, rfl, rfl⟩
  · intro oracle backoff h
    refine ⟨?_, ?_, ?_⟩
    · cases ho : oracle 1 with
      | ok r => simp [callUpstream, h, ho]
      | error e2 => simp [callUpstream, h, ho]
    · cases ho : oracle 1 with
      | ok r => simp [callUpstream, h, ho]
      | error e2 => simp [callUpstream, h, ho]
    · intro e2 ho
      simp [callUpstream, h, ho]
  · intro oracle backoff e h hne
    simp [callUpstream, h, hne]

def c8oracle : Nat → Except UpstreamError Nat :=
  fun _ => .error .upstreamConnectionError

theorem upstream_retry_policy_witness :
    c8oracle 0 = .error .upstreamConnectionError ∧
    (callUpstream c8oracle 100).attempts = 2 ∧
    (callUpstream c8oracle 100).waits = [100] ∧
    (callUpstream c8oracle 100).result = .error .upstreamConnectionError := by
  have h : c8oracle 0 = .error .upstreamConnectionError := rfl
  have hmain := upstream_retry_policy.1 c8oracle 100 h
  exact ⟨h, hmain.1, hmain.2.1, hmain.2.2 .upstreamConnectionError rfl⟩

/-! ## Quota fetcher (src/cliproxy/quota-fetcher.ts) -/

/-- A JavaScript number at runtime: finite, NaN, or an infinity. -/
inductive JsNum where
  | finite (q : ℚ)
  | nan
  | posInf
  | negInf
deriving DecidableEq

/-- A dynamic JSON field value: a number or anything else. -/
inductive JsVal where
  | num (x : JsNum)
  | other
deriving DecidableEq

/-- The quotaInfo object shape with its alias fields, embedded from the
AvailableModel interface (quota-fetcher.ts lines 100-117). -/
structure QuotaInfoJson where
  remainingFraction : Option JsVal
  remaining_fraction : Option JsVal
  remaining : Option JsVal
  resetTime : Option String
  reset_time : Option String
deriving DecidableEq

/-- One entry of the fetchAvailableModels response map. -/
structure AvailableModel where
  name : Option String
  displayName : Option String
  quotaInfo : Option QuotaInfoJson
  quota_info : Option QuotaInfoJson
deriving DecidableEq

/-- Normalized per-model quota, embedded from the ModelQuota interface. -/
structure ModelQuota where
  name : String
  displayName : Option String
  percentage : Int
  resetTime : Option String
deriving DecidableEq

/-- TS nullish coalescing `a ?? b` over optional dynamic fields. -/
def jsCoalesce (a b : Option JsVal) : Option JsVal :=
  match a with
  | some v => some v
  | none => b

/-- TS `a || b` over optional strings: undefined and the empty string are
falsy. -/
def jsOrStr (a b : Option String) : Option String :=
  match a with
  | some s => if s = "" then b else some s
  | none => b

/-- JS Math.round for finite values: round half toward positive infinity. -/
def jsRound (q : ℚ) : Int := Int.floor (q + 1 / 2)

/-- JS Math.max on two numbers. -/
def jsMaxI (a b : Int) : Int := if a < b then b else a

/-- JS Math.min on two numbers. -/
def jsMinI (a b : Int) : Int := if a ≤ b then a else b

theorem jsMaxI_ge_left (a b : Int) : a ≤ jsMaxI a b := by
  unfold jsMaxI
  by_cases h : a < b
  · rw [if_pos h]
    omega
  · rw [if_neg h]

theorem jsMaxI_le (a b c : Int) (h1 : a ≤ c) (h2 : b ≤ c) : jsMaxI a b ≤ c := by
  unfold jsMaxI
  by_cases h : a < b
  · rw [if_pos h]
    exact h2
  · rw [if_neg h]
    exact h1

theorem jsMinI_le_left (a b : Int) : jsMinI a b ≤ a := by
  unfold jsMinI
  by_cases h : a ≤ b
  · rw [if_pos h]
  · rw [if_neg h]
    omega

/-- `modelData.quotaInfo || modelData.quota_info` (line 384). -/
def chosenInfo (m : AvailableModel) : Option QuotaInfoJson :=
  match m.quotaInfo with
  | some qi => some qi
  | none => m.quota_info

/-- `quotaInfo.remainingFraction ?? quotaInfo.remaining_fraction ??
quotaInfo.remaining` (lines 388-389). -/
def chosenRemaining (qi : QuotaInfoJson) : Option JsVal :=
  jsCoalesce qi.remainingFraction (jsCoalesce qi.remaining_fraction qi.remaining)

/-- The `typeof remaining === number && isFinite(remaining)` filter
(line 392): the finite numeric payload when the check passes. -/
def finitePart : Option JsVal → Option ℚ
  | some (.num (.finite q)) => some q
  | _ => none

/-- Embedded from the fetchAvailableModels per-entry loop (quota-fetcher.ts
lines 382-407): pick quotaInfo or quota_info, read the first present alias
of the remaining fraction, skip non-finite values, convert to a clamped
rounded percentage, and pick the reset time with the same alias rule. -/
def processModelEntry (modelId : String) (m : AvailableModel) : Option ModelQuota :=
  match chosenInfo m with
  | none => none
  | some qi =>
    match finitePart (chosenRemaining qi) with
    | none => none
    | some q =>
      some ⟨modelId, m.displayName,
        jsMaxI 0 (jsMinI 100 (jsRound (q * 100))),
        jsOrStr qi.resetTime (jsOrStr qi.reset_time none)⟩

/-- The whole response loop: entries whose quota cannot be read are
skipped, the rest are normalized in order. -/
def fetchModelsQuota (entries : List (String × AvailableModel)) : List ModelQuota :=
  entries.filterMap (fun p => processModelEntry p.1 p.2)

/-- C9: the remaining-quota value is read from the first present alias
field in the order remainingFraction, remaining_fraction, remaining,
inside quotaInfo taken as quotaInfo-or-quota_info; entries whose value is
not a finite number are skipped; and every reported percentage is an
integer between 0 and 100 obtained by rounding fraction*100 and clamping. -/
theorem quota_percentage_normalization :
    (∀ (qi : QuotaInfoJson) (v : JsVal), qi.remainingFraction = some v →
        chosenRemaining qi = some v) ∧
    (∀ (qi : QuotaInfoJson) (v : JsVal), qi.remainingFraction = none →
        qi.remaining_fraction = some v → chosenRemaining qi = some v) ∧
    (∀ qi : QuotaInfoJson, qi.remainingFraction = none →
        qi.remaining_fraction = none → chosenRemaining qi = qi.remaining) ∧
    (∀ (m : AvailableModel) (qi : QuotaInfoJson), m.quotaInfo = some qi →
        chosenInfo m = some qi) ∧
    (∀ m : AvailableModel, m.quotaInfo = none → chosenInfo m = m.quota_info) ∧
    (∀ (mid : String) (m : AvailableModel) (qi : QuotaInfoJson),
        chosenInfo m = some qi → finitePart (chosenRemaining qi) = none →
        processModelEntry mid m = none) ∧
    (∀ (mid : String) (m : AvailableModel) (r : ModelQuota),
        processModelEntry mid m = some r →
        0 ≤ r.percentage ∧ r.percentage ≤ 100 ∧
        ∃ (qi : QuotaInfoJson) (q : ℚ), chosenInfo m = some qi ∧
          finitePart (chosenRemaining qi) = some q ∧
          r.percentage = jsMaxI 0 (jsMinI 100 (jsRound (q * 100)))) := by
  refine ⟨?_, ?_, ?_, ?_, ?_, ?_, ?_⟩
  · intro qi v h
    simp [chosenRemaining, jsCoalesce, h]
  · intro qi v h1 h2
    simp [chosenRemaining, jsCoalesce, h1, h2]
  · intro qi h1 h2
    simp [chosenRemaining, jsCoalesce, h1, h2]
  · intro m qi h
    simp [chosenInfo, h]
  · intro m h
    simp [chosenInfo, h]
  · intro mid m qi h1 h2
    simp [processModelEntry, h1, h2]
  · intro mid m r h
    unfold processModelEntry at h
    cases hinfo : chosenInfo m with
    | none => rw [hinfo] at h; exact Option.noConfusion h
    | some qi =>
      rw [hinfo] at h
      dsimp only at h
      cases hfin : finitePart (chosenRemaining qi) with
      | none => rw [hfin] at h; exact Option.noConfusion h
      | some q =>
        rw [hfin] at h
        have hr := Option.some.inj h
        refine ⟨?_, ?_, qi, q, rfl, hfin, ?_⟩
        · rw [← hr]
          exact jsMaxI_ge_left 0 _
        · rw [← hr]
          exact jsMaxI_le _ _ _ (by omega) (jsMinI_le_left 100 _)
        · rw [← hr]

def c9info : QuotaInfoJson :=
  ⟨some (.num (.finite (457 / 1000))), some (.num (.finite (9 / 10))), none,
    some "2026-01-01T00:00:00Z", none⟩

def c9model : AvailableModel :=
  ⟨some "gemini-3-pro", some "Gemini 3 Pro", some c9info, none⟩

theorem quota_percentage_normalization_witness :
    processModelEntry "gemini-3-pro-high" c9model =
      some ⟨"gemini-3-pro-high", some "Gemini 3 Pro", 46,
        some "2026-01-01T00:00:00Z"⟩ ∧
    0 ≤ (46 : Int) ∧ (46 : Int) ≤ 100 ∧
    ∃ (qi : QuotaInfoJson) (q : ℚ), chosenInfo c9model = some qi ∧
      finitePart (chosenRemaining qi) = some q ∧
      (46 : Int) = jsMaxI 0 (jsMinI 100 (jsRound (q * 100))) := by
  have h : processModelEntry "gemini-3-pro-high" c9model =
      some ⟨"gemini-3-pro-high", some "Gemini 3 Pro", 46,
        some "2026-01-01T00:00:00Z"⟩ := by
    simp only [processModelEntry, c9model, c9info, chosenInfo, chosenRemaining,
      jsCoalesce, finitePart, jsOrStr]
    norm_num [jsRound, jsMaxI, jsMinI]
    intro hcontra
    exact absurd hcontra (by decide)
  have hmain := quota_percentage_normalization.2.2.2.2.2.2
    "gemini-3-pro-high" c9model
    ⟨"gemini-3-pro-high", some "Gemini 3 Pro", 46, some "2026-01-01T00:00:00Z"⟩ h
  exact ⟨h, hmain.1, hmain.2.1, hmain.2.2⟩

/-! ## Startup lock (startup-lock module) -/

/-- Lock file contents, embedded from the LockData interface. -/
structure LockData where
  pid : Nat
  timestamp : Int
  hostname : String
deriving DecidableEq

/-- Environment one acquisition attempt observes: the clock, the set of
live process ids, and our own identity. -/
structure LockEnv where
  now : Int
  running : List Nat
  myPid : Nat
  myHostname : String
deriving DecidableEq

/-- 10 s stale-lock timeout, embedded from LOCK_TIMEOUT_MS. -/
def LOCK_TIMEOUT_MS : Int := 10000

/-- Embedded from isLockStale (startup-lock, lines 65-78): stale when the
timestamp is more than LOCK_TIMEOUT_MS old, or when the recorded pid is no
longer a running process (process.kill(pid, 0) throws). -/
def isLockStale (env : LockEnv) (ld : LockData) : Bool :=
  if LOCK_TIMEOUT_MS < env.now - ld.timestamp then true
  else if decide (ld.pid ∈ env.running) then false
  else true

/-- Result of one acquisition attempt: the flag and the lock file left on
disk. The lock-file state is `none` when no file exists, `some none` when
an unparseable file exists, `some (some ld)` when a parseable one does. -/
structure TryResult where
  acquired : Bool
  fsAfter : Option (Option LockData)
deriving DecidableEq

/-- The lock record this process writes. -/
def ownLock (env : LockEnv) : LockData := ⟨env.myPid, env.now, env.myHostname⟩

/-- Embedded from tryAcquireLockOnce (startup-lock, lines 86-169): a
parseable non-stale lock refuses acquisition and is left in place; a
stale or unparseable lock file is removed and replaced by our own lock;
with no lock file the lock is created and acquired. -/
def tryAcquireLockOnce (env : LockEnv) (fsL : Option (Option LockData)) : TryResult :=
  match fsL with
  | some (some ld) =>
    if isLockStale env ld = false then ⟨false, some (some ld)⟩
    else ⟨true, some (some (ownLock env))⟩
  | some none => ⟨true, some (some (ownLock env))⟩
  | none => ⟨true, some (some (ownLock env))⟩

/-- Default retry count, embedded from `options?.retries ?? 20`. -/
def DEFAULT_RETRIES : Nat := 20

/-- Default retry interval, embedded from `options?.retryInterval ?? 250`. -/
def DEFAULT_RETRY_INTERVAL_MS : Nat := 250

/-- Outcome of the retry loop: whether the lock was obtained (false models
the thrown error), how many attempts ran, and the waits between them. -/
structure AcquireOutcome where
  acquired : Bool
  attemptsMade : Nat
  waits : List Nat
deriving DecidableEq

/-- Embedded from the retry loop of acquireStartupLock (lines 191-201):
run attempts in order, waiting `interval` between consecutive attempts but
not after the last one; `tryAt n` abstracts the result attempt `n` gets
from tryAcquireLockOnce against the filesystem state it observes. -/
def acquireGo (tryAt : Nat → Bool) (interval attempt left : Nat) : AcquireOutcome :=
  match left with
  | 0 => ⟨false, 0, []⟩
  | l + 1 =>
    if tryAt attempt then ⟨true, 1, []⟩
    else
      match l with
      | 0 => ⟨false, 1, []⟩
      | _ + 1 =>
        let r := acquireGo tryAt interval (attempt + 1) l
        ⟨r.acquired, r.attemptsMade + 1, interval :: r.waits⟩

/-- Embedded from acquireStartupLock (lines 180-208): the loop runs
attempts 0 through `retries` inclusive and throws when all fail. -/
def acquireStartupLock (tryAt : Nat → Bool) (retries interval : Nat) : AcquireOutcome :=
  acquireGo tryAt interval 0 (retries + 1)

theorem acquireGo_attempts_le (tryAt : Nat → Bool) (interval : Nat) :
    ∀ (left attempt : Nat),
      (acquireGo tryAt interval attempt left).attemptsMade ≤ left := by
  intro left
  induction left with
  | zero => intro attempt; rfl
  | succ l ih =>
    intro attempt
    unfold acquireGo
    by_cases ht : tryAt attempt
    · rw [if_pos ht]
      show 1 ≤ l + 1
      omega
    · rw [if_neg ht]
      cases l with
      | zero => exact Nat.le_refl 1
      | succ l2 =>
        have hrec := ih (attempt + 1)
        show (acquireGo tryAt interval (attempt + 1) (l2 + 1)).attemptsMade + 1 ≤
          l2 + 1 + 1
        omega

theorem acquireGo_all_fail (tryAt : Nat → Bool) (interval : Nat) :
    ∀ (left attempt : Nat), 1 ≤ left →
      (∀ k, k < left → tryAt (attempt + k) = false) →
      acquireGo tryAt interval attempt left =
        ⟨false, left, List.replicate (left - 1) interval⟩ := by
  intro left
  induction left with
  | zero => intro attempt h1; omega
  | succ l ih =>
    intro attempt h1 hfail
    unfold acquireGo
    have h0 : tryAt attempt = false := by
      have := hfail 0 (by omega)
      simpa using this
    rw [if_neg (by simp [h0])]
    cases l with
    | zero => rfl
    | succ l2 =>
      have hrec := ih (attempt + 1) (by omega) (by
        intro k hk
        have hf := hfail (k + 1) (by omega)
        have harith : attempt + (k + 1) = attempt + 1 + k := by omega
        rw [harith] at hf
        exact hf)
      dsimp only
      rw [hrec]
      have harith2 : l2 + 1 + 1 - 1 = (l2 + 1 - 1) + 1 := by omega
      rw [harith2, List.replicate_succ]

/-- C10: a single acquisition attempt refuses the lock whenever a
parseable lock file from another process exists that is not stale, where
stale means more than 10 s old or a dead pid; and acquireStartupLock with
the default 20 retries makes at most 21 attempts, 250 ms apart, reporting
failure (the thrown error) when every attempt fails. -/
theorem startup_lock_behavior :
    (∀ (env : LockEnv) (ld : LockData),
        isLockStale env ld = true ↔
          (LOCK_TIMEOUT_MS < env.now - ld.timestamp ∨ ld.pid ∉ env.running)) ∧
    (∀ (env : LockEnv) (ld : LockData), ld.pid ≠ env.myPid →
        isLockStale env ld = false →
        tryAcquireLockOnce env (some (some ld)) = ⟨false, some (some ld)⟩) ∧
    (∀ (tryAt : Nat → Bool) (interval : Nat),
        (acquireStartupLock tryAt DEFAULT_RETRIES interval).attemptsMade ≤ 21) ∧
    (∀ (tryAt : Nat → Bool) (interval : Nat),
        (∀ k, k ≤ DEFAULT_RETRIES → tryAt k = false) →
        acquireStartupLock tryAt DEFAULT_RETRIES interval =
          ⟨false, 21, List.replicate 20 interval⟩) ∧
    DEFAULT_RETRIES = 20 ∧ DEFAULT_RETRY_INTERVAL_MS = 250 := by
  refine ⟨?_, ?_, ?_, ?_, rfl, rfl⟩
  · intro env ld
    unfold isLockStale
    by_cases h1 : LOCK_TIMEOUT_MS < env.now - ld.timestamp
    · simp [h1]
    · by_cases h2 : ld.pid ∈ env.running
      · simp [h1, h2]
      · simp [h1, h2]
  · intro env ld hpid hstale
    simp [tryAcquireLockOnce, hstale]
  · intro tryAt interval
    exact acquireGo_attempts_le tryAt interval (DEFAULT_RETRIES + 1) 0
  · intro tryAt interval hfail
    have h := acquireGo_all_fail tryAt interval (DEFAULT_RETRIES + 1) 0 (by omega)
      (by
        intro k hk
        have := hfail k (by
          unfold DEFAULT_RETRIES
          unfold DEFAULT_RETRIES at hk
          omega)
        simpa using this)
    exact h

def c10env : LockEnv := ⟨100000, [42], 7, "host-a"⟩

def c10lock : LockData := ⟨42, 95000, "host-b"⟩

theorem startup_lock_behavior_witness :
    c10lock.pid ≠ c10env.myPid ∧
    isLockStale c10env c10lock = false ∧
    tryAcquireLockOnce c10env (some (some c10lock)) = ⟨false, some (some c10lock)⟩ ∧
    (∀ k, k ≤ DEFAULT_RETRIES → (fun _ => false) k = false) ∧
    acquireStartupLock (fun _ => false) DEFAULT_RETRIES 250 =
      ⟨false, 21, List.replicate 20 250⟩ := by
  refine ⟨by decide, by decide, ?_, fun k _ => rfl, ?_⟩
  · exact startup_lock_behavior.2.1 c10env c10lock (by decide) (by decide)
  · exact startup_lock_behavior.2.2.2.1 (fun _ => false) 250 (fun k _ => rfl)

end CCS
